import Mathlib

/-!
# Query dispatch of the albert launcher: `ExtensionManager`

A shallow embedding of `src/application/pluginsystem/extension/extensionmanager.cpp`.

* A `QString` is a `List Char`.
* An `IExtension*` is a record holding the pointer value (`addr`, the identity the
  registry `std::set<IExtension*>` compares) and the results of the virtual methods.
  `handleQuery` / `handleFallbackQuery` receive the query and return the matches they
  append to its accumulator.
* Every operation of the manager returns the new manager state together with the list of
  effects it performed, in order (`Event`): calls made on extensions, `newModel` signals,
  `qCritical` messages.
* The headers `iextension.h`, `query.h`, `query_p.hpp` and `extensionmanager.h` are not
  among the sources; the types they declare are modelled from the specification.
* `QString::trimmed`, `QString::section` and `std::stable_sort` are library routines; they
  are given by their algorithm (for the sort, the one of libstdc++).
-/

namespace Albert

/-! ## Data model -/

/-- Modelled from the spec: the `Match` of `query_p.hpp`, one entry of
`QueryPrivate::matches_`: the item handle with the two numbers the ranking reads from it
(`item.data->importance()`, `item.data->usageCount()`) and the score. -/
structure Match where
  item : Nat
  importance : Int
  usageCount : Int
  score : Int
deriving DecidableEq, Repr

/-- Modelled from the spec: the `Query` of `query.h`, the unit of work created by
`std::make_shared<Query>(trimmedTerm)`: the search term and the accumulated matches
(`impl->matches_`), empty at creation. -/
structure Query where
  searchTerm : List Char
  matches_ : List Match
deriving DecidableEq, Repr

/-- Modelled from the spec: matches created by a handler are appended to the accumulator
of the query. -/
def Query.addMatches (q : Query) (ms : List Match) : Query :=
  { q with matches_ := q.matches_ ++ ms }

/-- Modelled from the spec: the interface `IExtension` of `iextension.h`, as the manager
sees an extension through `IExtension*`: its address and what its methods answer. -/
structure IExtension where
  addr : Nat
  isTriggerOnly : Bool
  runExclusive : Bool
  triggers : List (List Char)
  handleQuery : Query → List Match
  handleFallbackQuery : Query → List Match

/-- Observable effects of the manager, in the order they happen. -/
inductive Event where
  | handleQuery (e : Nat) (appended : List Match)
  | handleFallbackQuery (e : Nat) (appended : List Match)
  | setupSession (e : Nat)
  | teardownSession (e : Nat)
  | newModel (model : Option (List Match))
  | qCritical (msg : String)
  | activate (item : Nat)
deriving DecidableEq, Repr

/-- Modelled from the spec: the members of `ExtensionManager` declared in
`extensionmanager.h`: the registry `extensions_` (in the iteration order of the `std::set`)
and `currentQuery_` (`none` is the null pointer). -/
structure ExtensionManager where
  extensions_ : List IExtension
  currentQuery_ : Option Query

/-! ## Qt string helpers used by `startQuery` -/

/-- The characters `QChar::isSpace` accepts: space, U+0009..U+000D, U+0085, U+00A0 and the
Unicode separator categories Zs, Zl, Zp. -/
def QChar_isSpace (c : Char) : Bool :=
  let u := c.toNat
  u == 0x20 || (0x09 ≤ u && u ≤ 0x0d) || u == 0x85 || u == 0xa0 || u == 0x1680
    || (0x2000 ≤ u && u ≤ 0x200a) || u == 0x2028 || u == 0x2029 || u == 0x202f
    || u == 0x205f || u == 0x3000

/-- The result of `QString::trimmed()`: whitespace removed from the start and the end. -/
def QString_trimmed (s : List Char) : List Char :=
  (s.dropWhile QChar_isSpace).rdropWhile QChar_isSpace

/-- The result of `QString::section(' ', 0, 0)`: the text before the first space, the whole
string when it has no space. -/
def QString_section_0_0 (s : List Char) : List Char :=
  s.takeWhile (fun c => c != ' ')

/-! ## The ranking comparator and `std::stable_sort` -/

/-- The lambda passed to `std::stable_sort` (lines 74-78). -/
def comparator (lhs rhs : Match) : Bool :=
  decide (lhs.importance > rhs.importance)
    || decide (lhs.usageCount > rhs.usageCount)
    || decide (lhs.score > rhs.score)

/-- What the specification asks of the comparator: descending lexicographic order on
(importance, usageCount, score). -/
def lexDescending (lhs rhs : Match) : Bool :=
  decide (lhs.importance > rhs.importance)
    || (decide (lhs.importance = rhs.importance)
        && (decide (lhs.usageCount > rhs.usageCount)
            || (decide (lhs.usageCount = rhs.usageCount)
                && decide (lhs.score > rhs.score))))

section StableSort
variable {α : Type}

/-- One iteration of `std::__insertion_sort`: `sorted` is the range before the element `val`.
When `comp(val, *first)` holds the value is moved to the front, otherwise
`__unguarded_linear_insert` shifts it left past every element it compares before. -/
def insertionStep (comp : α → α → Bool) (sorted : List α) (val : α) : List α :=
  match sorted with
  | [] => [val]
  | first :: _ =>
    if comp val first then val :: sorted
    else sorted.rdropWhile (comp val) ++ val :: sorted.rtakeWhile (comp val)

/-- The routine `std::__insertion_sort`. -/
def insertion_sort (comp : α → α → Bool) (l : List α) : List α :=
  l.foldl (insertionStep comp) []

/-- The routine `std::__chunk_insertion_sort`: every chunk of `chunk` elements is sorted by
insertion, and so is the shorter rest. -/
def chunk_insertion_sort (comp : α → α → Bool) (chunk : Nat) : Nat → List α → List α
  | 0, l => insertion_sort comp l
  | fuel + 1, l =>
    if chunk ≤ l.length ∧ 0 < chunk then
      insertion_sort comp (l.take chunk) ++ chunk_insertion_sort comp chunk fuel (l.drop chunk)
    else insertion_sort comp l

/-- The forward merge while the first range starts with `a` (its rest is `l1`): elements of
the second range are taken as long as they compare before `a`; `k` merges `l1` with what
is left of the second range once `a` has been taken. -/
def move_merge_from (comp : α → α → Bool) (a : α) (l1 : List α) (k : List α → List α) :
    List α → List α
  | [] => a :: l1
  | b :: l2 => if comp b a then b :: move_merge_from comp a l1 k l2 else a :: k (b :: l2)

/-- The routines `std::__move_merge` and `std::__move_merge_adaptive`: the forward merge,
taking from the second range when `comp(*first2, *first1)`. -/
def move_merge (comp : α → α → Bool) : List α → List α → List α
  | [] => fun l2 => l2
  | a :: l1 => move_merge_from comp a l1 (move_merge comp l1)

/-- The backward merge while the second range ends with `b` (`r2` is the rest, reversed):
elements are taken from the end of the first range as long as `b` compares before them;
`k` goes on with the rest of the second range once `b` has been written. -/
def move_merge_backward_from (comp : α → α → Bool) (b : α) (r2 : List α)
    (k : List α → List α → List α) : List α → List α → List α
  | [], acc => (b :: r2).reverse ++ acc
  | a :: r1, acc =>
    if comp b a then move_merge_backward_from comp b r2 k r1 (a :: acc)
    else k (a :: r1) (b :: acc)

/-- The routine `std::__move_merge_adaptive_backward` on the two ranges read from their ends
(`r2`, `r1` are the reversed second and first range); `acc` is the part of the result
already written. When `comp(*last2, *last1)` the last element of the first range is
written, otherwise the last element of the second range. -/
def move_merge_backward (comp : α → α → Bool) : List α → List α → List α → List α
  | [] => fun r1 acc => r1.reverse ++ acc
  | b :: r2 => move_merge_backward_from comp b r2 (move_merge_backward comp r2)

/-- The routine `std::__merge_adaptive` with a buffer that holds the shorter range: forward
when the first range is not longer than the second, backward otherwise. -/
def merge_adaptive (comp : α → α → Bool) (l1 l2 : List α) : List α :=
  if l1.length ≤ l2.length then move_merge comp l1 l2
  else move_merge_backward comp l2.reverse l1.reverse []

/-- The routine `std::__merge_sort_loop`: neighbouring runs of `step` elements are merged. -/
def merge_sort_loop (comp : α → α → Bool) (step : Nat) : Nat → List α → List α
  | 0, l => move_merge comp (l.take (min l.length step)) (l.drop (min l.length step))
  | fuel + 1, l =>
    if 2 * step ≤ l.length ∧ 0 < step then
      move_merge comp (l.take step) ((l.drop step).take step)
        ++ merge_sort_loop comp step fuel (l.drop (2 * step))
    else move_merge comp (l.take (min l.length step)) (l.drop (min l.length step))

/-- The `while (step_size < len)` loop of `std::__merge_sort_with_buffer`: two merge passes
per round, the run length doubling after each. -/
def merge_sort_rounds (comp : α → α → Bool) (len : Nat) : Nat → Nat → List α → List α
  | 0, _, l => l
  | fuel + 1, step, l =>
    if step < len then
      merge_sort_rounds comp len fuel (4 * step)
        (merge_sort_loop comp (2 * step) len (merge_sort_loop comp step len l))
    else l

/-- The routine `std::__merge_sort_with_buffer`, `_S_chunk_size = 7`. -/
def merge_sort_with_buffer (comp : α → α → Bool) (l : List α) : List α :=
  merge_sort_rounds comp l.length l.length 7 (chunk_insertion_sort comp 7 l.length l)

/-- The algorithm of `std::stable_sort` in libstdc++ (`__stable_sort_adaptive` with the
temporary buffer allocated): both halves are sorted with `__merge_sort_with_buffer`, the
first half holding `(len + 1) / 2` elements, and merged with `__merge_adaptive`. -/
def stable_sort (comp : α → α → Bool) (l : List α) : List α :=
  let middle := (l.length + 1) / 2
  merge_adaptive comp (merge_sort_with_buffer comp (l.take middle))
    (merge_sort_with_buffer comp (l.drop middle))

end StableSort

/-! ## `ExtensionManager::startQuery` -/

/-- The loop over `e->triggers()` (lines 45-55). The result is the query, the effects and
whether `return` was executed (after `emit newModel(currentQuery_->impl)`). -/
def triggerLoop (e : IExtension) (potentialTrigger : List Char) :
    List (List Char) → Query → Query × List Event × Bool
  | [], q => (q, [], false)
  | trigger :: rest, q =>
    if trigger = potentialTrigger then
      let appended := e.handleQuery q
      let q1 := q.addMatches appended
      if e.runExclusive then
        (q1, [Event.handleQuery e.addr appended, Event.newModel (some q1.matches_)], true)
      else
        let r := triggerLoop e potentialTrigger rest q1
        (r.1, Event.handleQuery e.addr appended :: r.2.1, r.2.2)
    else triggerLoop e potentialTrigger rest q

/-- The loop over the trigger extensions (lines 43-57). -/
def triggerPhase (potentialTrigger : List Char) :
    List IExtension → Query → Query × List Event × Bool
  | [], q => (q, [], false)
  | e :: es, q =>
    if e.isTriggerOnly then
      let r := triggerLoop e potentialTrigger e.triggers q
      if r.2.2 then r
      else
        let r1 := triggerPhase potentialTrigger es r.1
        (r1.1, r.2.1 ++ r1.2.1, r1.2.2)
    else triggerPhase potentialTrigger es q

/-- The loop over the nontrigger extensions (lines 60-62). -/
def globalPhase : List IExtension → Query → Query × List Event
  | [], q => (q, [])
  | e :: es, q =>
    if !e.isTriggerOnly then
      let appended := e.handleQuery q
      let r := globalPhase es (q.addMatches appended)
      (r.1, Event.handleQuery e.addr appended :: r.2)
    else globalPhase es q

/-- The fallback loop (lines 67-68). -/
def fallbackPhase : List IExtension → Query → Query × List Event
  | [], q => (q, [])
  | e :: es, q =>
    let appended := e.handleFallbackQuery q
    let r := fallbackPhase es (q.addMatches appended)
    (r.1, Event.handleFallbackQuery e.addr appended :: r.2)

/-- The method `ExtensionManager::startQuery` (lines 25-83). -/
def startQuery (m : ExtensionManager) (searchTerm : List Char) :
    ExtensionManager × List Event :=
  let trimmedTerm := QString_trimmed searchTerm
  if trimmedTerm.isEmpty then (m, [Event.newModel none])
  else
    let q0 : Query := { searchTerm := trimmedTerm, matches_ := [] }
    let potentialTrigger := QString_section_0_0 trimmedTerm
    let r1 := triggerPhase potentialTrigger m.extensions_ q0
    if r1.2.2 then ({ m with currentQuery_ := some r1.1 }, r1.2.1)
    else
      let r2 := globalPhase m.extensions_ r1.1
      if r2.1.matches_.length = 0 then
        let r3 := fallbackPhase m.extensions_ r2.1
        ({ m with currentQuery_ := some r3.1 },
          r1.2.1 ++ r2.2 ++ r3.2 ++ [Event.newModel (some r3.1.matches_)])
      else
        let q3 : Query := { r2.1 with matches_ := stable_sort comparator r2.1.matches_ }
        ({ m with currentQuery_ := some q3 },
          r1.2.1 ++ r2.2 ++ [Event.newModel (some q3.matches_)])

/-! ## Session, registry, activation -/

/-- The method `ExtensionManager::setSessionActive` (lines 88-97). -/
def setSessionActive (m : ExtensionManager) (active : Bool) :
    ExtensionManager × List Event :=
  if active then (m, m.extensions_.map (fun e => Event.setupSession e.addr))
  else (m, m.extensions_.map (fun e => Event.teardownSession e.addr) ++ [Event.newModel none])

/-- A `QObject*` handed to the registry; `iextension` is what
`qobject_cast<IExtension*>` yields (`none` is the null pointer). -/
structure QObject where
  iextension : Option IExtension

/-- The cast `qobject_cast<IExtension*>(o)`. -/
def qobject_cast (o : QObject) : Option IExtension := o.iextension

/-- The member `std::set::count` on pointers: the number of entries with this address. -/
def set_count (xs : List IExtension) (e : IExtension) : Nat :=
  xs.countP (fun x => x.addr == e.addr)

/-- The member `std::set::insert` on pointers: the entry is placed in ascending address
order, and nothing is stored when the address is present. -/
def set_insert : List IExtension → IExtension → List IExtension
  | [], e => [e]
  | x :: xs, e =>
    if e.addr < x.addr then e :: x :: xs
    else if e.addr = x.addr then x :: xs
    else x :: set_insert xs e

/-- The member `std::set::erase` by key: entries with this address are removed. -/
def set_erase (xs : List IExtension) (e : IExtension) : List IExtension :=
  xs.filter (fun x => x.addr != e.addr)

/-- The method `ExtensionManager::registerExtension` (lines 102-110). -/
def registerExtension (m : ExtensionManager) (o : QObject) :
    ExtensionManager × List Event :=
  match qobject_cast o with
  | some e =>
    if set_count m.extensions_ e ≠ 0 then
      (m, [Event.qCritical "Extension registered twice!"])
    else ({ m with extensions_ := set_insert m.extensions_ e }, [])
  | none => (m, [])

/-- The method `ExtensionManager::unregisterExtension` (lines 115-123). -/
def unregisterExtension (m : ExtensionManager) (o : QObject) :
    ExtensionManager × List Event :=
  match qobject_cast o with
  | some e =>
    if set_count m.extensions_ e = 0 then
      (m, [Event.qCritical
        "Unregistered unregistered extension! (Duplicate unregistration?)"])
    else ({ m with extensions_ := set_erase m.extensions_ e }, [])
  | none => (m, [])

/-- Modelled from the spec: `QueryPrivate::activate(index)` (declared in `query_p.hpp`) is
the selection of `matches[index]`, forwarded to the item's activation hook; an index out of
range is a caller error. -/
def QueryPrivate_activate (q : Query) (index : Int) : Option (List Event) :=
  if index < 0 then none
  else (q.matches_.get? index.toNat).map (fun mt => [Event.activate mt.item])

/-- The method `ExtensionManager::activateIndex` (lines 128-130); `none` when the current
query is null or the index is out of range. -/
def activateIndex (m : ExtensionManager) (index : Int) : Option (List Event) :=
  match m.currentQuery_ with
  | none => none
  | some q => QueryPrivate_activate q index

/-! ## Reading the effects of a dispatch -/

/-- The addresses of the extensions whose `handleQuery` was called, in call order. -/
def handleQueryCalls (evs : List Event) : List Nat :=
  evs.filterMap (fun ev => match ev with
    | Event.handleQuery a _ => some a
    | _ => none)

/-- The addresses of the extensions whose `handleFallbackQuery` was called, in call order. -/
def handleFallbackQueryCalls (evs : List Event) : List Nat :=
  evs.filterMap (fun ev => match ev with
    | Event.handleFallbackQuery a _ => some a
    | _ => none)

/-- The addresses of the extensions whose `teardownSession` was called, in call order. -/
def teardownSessionCalls (evs : List Event) : List Nat :=
  evs.filterMap (fun ev => match ev with
    | Event.teardownSession a => some a
    | _ => none)

/-- The models handed to `newModel`, in emission order. -/
def newModels (evs : List Event) : List (Option (List Match)) :=
  evs.filterMap (fun ev => match ev with
    | Event.newModel x => some x
    | _ => none)

/-- The matches appended by the `handleQuery` calls, in the order they were appended. -/
def handleQueryMatches : List Event → List Match
  | [] => []
  | Event.handleQuery _ ms :: evs => ms ++ handleQueryMatches evs
  | _ :: evs => handleQueryMatches evs

/-- The first section of the trimmed term, as `startQuery` computes it. -/
def potentialTriggerOf (searchTerm : List Char) : List Char :=
  QString_section_0_0 (QString_trimmed searchTerm)

/-- A trigger extension one of whose triggers equals the potential trigger. -/
def triggered (pt : List Char) (e : IExtension) : Bool :=
  e.isTriggerOnly && decide (pt ∈ e.triggers)

/-- A triggered extension that wants to be run exclusively. -/
def exclusivelyTriggered (pt : List Char) (e : IExtension) : Bool :=
  triggered pt e && e.runExclusive

/-- No two entries of the registry have the same address. -/
def DistinctAddrs (exts : List IExtension) : Prop :=
  (exts.map (fun e => e.addr)).Nodup

instance (exts : List IExtension) : Decidable (DistinctAddrs exts) := by
  unfold DistinctAddrs
  infer_instance

/-- The entries of the registry are in strictly ascending address order, the iteration
order of `std::set<IExtension*>`. -/
def AddrSorted (exts : List IExtension) : Prop :=
  exts.Pairwise (fun a b => a.addr < b.addr)

instance (exts : List IExtension) : Decidable (AddrSorted exts) := by
  unfold AddrSorted
  infer_instance

/-- A registration request made to the manager. -/
inductive RegistryCall where
  | register (o : QObject)
  | unregister (o : QObject)

/-- The manager after a sequence of `registerExtension` / `unregisterExtension` calls. -/
def runRegistryCalls : ExtensionManager → List RegistryCall → ExtensionManager
  | m, [] => m
  | m, RegistryCall.register o :: cs => runRegistryCalls (registerExtension m o).1 cs
  | m, RegistryCall.unregister o :: cs => runRegistryCalls (unregisterExtension m o).1 cs

/-- The identity `e` is registered: some entry of the registry has its address. -/
def registered (m : ExtensionManager) (e : IExtension) : Prop :=
  ∃ x ∈ m.extensions_, x.addr = e.addr

/-! ## Concrete extensions and managers used as test inputs -/

/-- A trigger extension for `go`, not exclusive, contributing one match. -/
def goHelper : IExtension :=
  { addr := 1, isTriggerOnly := true, runExclusive := false, triggers := ["go".toList],
    handleQuery := fun _ => [{ item := 10, importance := 0, usageCount := 0, score := 1 }],
    handleFallbackQuery := fun _ => [] }

/-- The extension `goHelper` living at a higher address, so that it comes after
`goExclusive` in the registry. -/
def goHelperHigh : IExtension := { goHelper with addr := 6 }

/-- A trigger extension for `go` that runs exclusively, contributing one match. -/
def goExclusive : IExtension :=
  { addr := 2, isTriggerOnly := true, runExclusive := true, triggers := ["go".toList],
    handleQuery := fun _ => [{ item := 20, importance := 0, usageCount := 0, score := 5 }],
    handleFallbackQuery := fun _ => [] }

/-- A global extension contributing three matches. -/
def globalThree : IExtension :=
  { addr := 3, isTriggerOnly := false, runExclusive := false, triggers := [],
    handleQuery := fun _ =>
      [{ item := 30, importance := 0, usageCount := 0, score := 3 },
       { item := 31, importance := 0, usageCount := 0, score := 2 },
       { item := 32, importance := 0, usageCount := 0, score := 1 }],
    handleFallbackQuery := fun _ => [] }

/-- A trigger extension for `go` that runs exclusively and finds nothing; it would offer one
item as a fallback. -/
def goSilent : IExtension :=
  { addr := 4, isTriggerOnly := true, runExclusive := true, triggers := ["go".toList],
    handleQuery := fun _ => [],
    handleFallbackQuery := fun _ => [{ item := 40, importance := 0, usageCount := 0, score := 0 }] }

/-- A trigger extension for `calc`, not exclusive. -/
def calcExtension : IExtension :=
  { addr := 5, isTriggerOnly := true, runExclusive := false, triggers := ["calc".toList],
    handleQuery := fun _ => [{ item := 50, importance := 0, usageCount := 0, score := 1 }],
    handleFallbackQuery := fun _ => [] }

/-- A global extension contributing the one match `mt`. -/
def provider (addr : Nat) (mt : Match) : IExtension :=
  { addr := addr, isTriggerOnly := false, runExclusive := false, triggers := [],
    handleQuery := fun _ => [mt], handleFallbackQuery := fun _ => [] }

/-- A match with usage count 1; `rankA2` has the same importance, usage count and score. -/
def rankA1 : Match := { item := 1, importance := 0, usageCount := 1, score := 0 }

/-- A match of higher importance and lower usage count than `rankA1`. -/
def rankB : Match := { item := 2, importance := 1, usageCount := 0, score := 0 }

/-- A match with the keys of `rankA1` and another item. -/
def rankA2 : Match := { item := 3, importance := 0, usageCount := 1, score := 0 }

/-- A match that is lowest in every key. -/
def rankC : Match := { item := 4, importance := 0, usageCount := 0, score := 0 }

/-- Four global extensions registered at the addresses 1 to 4, contributing `rankA1`,
`rankB`, `rankA2`, `rankC` in this order. -/
def rankingManager : ExtensionManager :=
  { extensions_ := [provider 1 rankA1, provider 2 rankB, provider 3 rankA2, provider 4 rankC],
    currentQuery_ := none }

/-- A manager whose current query holds one match, with two extensions registered. -/
def busyManager : ExtensionManager :=
  { extensions_ := [goHelper, globalThree],
    currentQuery_ := some { searchTerm := "go".toList,
                            matches_ := [{ item := 10, importance := 0, usageCount := 0,
                                           score := 1 }] } }

/-! ## The loops of the sort run to their end -/

/-- The chunk loop does not depend on the bound once the bound covers the range. -/
theorem chunk_insertion_sort_fuel {α : Type} (comp : α → α → Bool) (chunk : Nat)
    (hc : 0 < chunk) (fuel : Nat) (l : List α) (h : l.length ≤ fuel) :
    chunk_insertion_sort comp chunk (fuel + 1) l = chunk_insertion_sort comp chunk fuel l := by
  induction fuel generalizing l with
  | zero =>
    have hl : l = [] := List.length_eq_zero.1 (Nat.le_zero.1 h)
    subst hl
    have : ¬ chunk ≤ 0 := by omega
    simp [chunk_insertion_sort, this]
  | succ n ih =>
    rw [chunk_insertion_sort]
    conv => rhs; rw [chunk_insertion_sort]
    split
    · rw [ih (l.drop chunk) (by rw [List.length_drop]; omega)]
    · rfl

/-- The merge pass does not depend on the bound once the bound covers the range. -/
theorem merge_sort_loop_fuel {α : Type} (comp : α → α → Bool) (step : Nat) (fuel : Nat)
    (l : List α) (h : l.length ≤ fuel) :
    merge_sort_loop comp step (fuel + 1) l = merge_sort_loop comp step fuel l := by
  induction fuel generalizing l with
  | zero =>
    have hl : l = [] := List.length_eq_zero.1 (Nat.le_zero.1 h)
    subst hl
    simp [merge_sort_loop, move_merge]
  | succ n ih =>
    rw [merge_sort_loop]
    conv => rhs; rw [merge_sort_loop]
    split
    · rw [ih (l.drop (2 * step)) (by rw [List.length_drop]; omega)]
    · rfl

/-- The rounds of the merge sort do not depend on the bound once run length and bound
together cover the range. -/
theorem merge_sort_rounds_fuel {α : Type} (comp : α → α → Bool) (len : Nat) (fuel : Nat)
    (step : Nat) (hs : 0 < step) (l : List α) (h : len ≤ step + fuel) :
    merge_sort_rounds comp len (fuel + 1) step l = merge_sort_rounds comp len fuel step l := by
  induction fuel generalizing step l with
  | zero =>
    have : ¬ step < len := by omega
    simp [merge_sort_rounds, this]
  | succ n ih =>
    rw [merge_sort_rounds]
    conv => rhs; rw [merge_sort_rounds]
    split
    · rw [ih (4 * step) (by omega) _ (by omega)]
    · rfl

/-- The recursion equations of the forward merge, as the loop of `__move_merge` reads. -/
theorem move_merge_cons_cons {α : Type} (comp : α → α → Bool) (a b : α) (l1 l2 : List α) :
    move_merge comp (a :: l1) (b :: l2)
      = if comp b a then b :: move_merge comp (a :: l1) l2
        else a :: move_merge comp l1 (b :: l2) := rfl

/-- The recursion equations of the backward merge, as the loop of
`__move_merge_adaptive_backward` reads. -/
theorem move_merge_backward_cons_cons {α : Type} (comp : α → α → Bool) (a b : α)
    (r1 r2 acc : List α) :
    move_merge_backward comp (b :: r2) (a :: r1) acc
      = if comp b a then move_merge_backward comp (b :: r2) r1 (a :: acc)
        else move_merge_backward comp r2 (a :: r1) (b :: acc) := rfl

/-- With one trigger extension for `go` contributing a match of score 1 and one global
extension contributing matches of scores 3, 2, 1, the term `go` publishes the global
matches before the triggered one. -/
theorem startQuery_merge_example :
    newModels (startQuery ⟨[goHelper, globalThree], none⟩ "go".toList).2
      = [some [{ item := 30, importance := 0, usageCount := 0, score := 3 },
               { item := 31, importance := 0, usageCount := 0, score := 2 },
               { item := 10, importance := 0, usageCount := 0, score := 1 },
               { item := 32, importance := 0, usageCount := 0, score := 1 }]] := by
  decide

/-- The first section holds no space, and the string is the first section followed by
nothing or by a rest that starts with a space. -/
theorem QString_section_0_0_spec (s : List Char) :
    ' ' ∉ QString_section_0_0 s
      ∧ ∃ rest, s = QString_section_0_0 s ++ rest ∧ (rest = [] ∨ rest.head? = some ' ') := by
  induction s with
  | nil => simp [QString_section_0_0]
  | cons c cs ih =>
    obtain ⟨h1, rest, h2, h3⟩ := ih
    by_cases hc : c = ' '
    · subst hc
      refine ⟨by simp [QString_section_0_0], ' ' :: cs, by simp [QString_section_0_0], ?_⟩
      exact Or.inr rfl
    · have hne : (c != ' ') = true := by simpa using hc
      have hcons : QString_section_0_0 (c :: cs) = c :: QString_section_0_0 cs := by
        simp [QString_section_0_0, List.takeWhile_cons, hne]
      rw [hcons]
      refine ⟨?_, rest, ?_, h3⟩
      · intro hmem
        rcases List.mem_cons.1 hmem with h | h
        · exact hc h.symm
        · exact h1 h
      · rw [List.cons_append, ← h2]

/-! ## Lemmas on the effect readers -/

theorem handleQueryMatches_append (a b : List Event) :
    handleQueryMatches (a ++ b) = handleQueryMatches a ++ handleQueryMatches b := by
  induction a with
  | nil => rfl
  | cons ev evs ih => cases ev <;> simp [handleQueryMatches, ih]

theorem handleQueryCalls_append (a b : List Event) :
    handleQueryCalls (a ++ b) = handleQueryCalls a ++ handleQueryCalls b := by
  simp [handleQueryCalls]

theorem handleFallbackQueryCalls_append (a b : List Event) :
    handleFallbackQueryCalls (a ++ b)
      = handleFallbackQueryCalls a ++ handleFallbackQueryCalls b := by
  simp [handleFallbackQueryCalls]

theorem newModels_append (a b : List Event) :
    newModels (a ++ b) = newModels a ++ newModels b := by
  simp [newModels]

/-! ## The trigger loop -/

theorem triggerLoop_not_mem (e : IExtension) (pt : List Char) (ts : List (List Char))
    (q : Query) (h : pt ∉ ts) : triggerLoop e pt ts q = (q, [], false) := by
  induction ts with
  | nil => rfl
  | cons t rest ih =>
    have ht : ¬ t = pt := fun h1 => h (by simp [h1])
    have hr : pt ∉ rest := fun h1 => h (by simp [h1])
    simp [triggerLoop, ht, ih hr]

theorem triggerLoop_exclusive (e : IExtension) (pt : List Char) (ts : List (List Char))
    (q : Query) (h : pt ∈ ts) (hx : e.runExclusive = true) :
    triggerLoop e pt ts q
      = (q.addMatches (e.handleQuery q),
          [Event.handleQuery e.addr (e.handleQuery q),
            Event.newModel (some (q.addMatches (e.handleQuery q)).matches_)], true) := by
  induction ts with
  | nil => simp at h
  | cons t rest ih =>
    by_cases ht : t = pt
    · simp [triggerLoop, ht, hx]
    · have hr : pt ∈ rest := by
        rcases List.mem_cons.1 h with h1 | h1
        · exact absurd h1.symm ht
        · exact h1
      simp [triggerLoop, ht, ih hr]

/-- Without exclusivity the loop runs to its end: every effect is a `handleQuery` call on
this extension, and the accumulator grows by what these calls appended. -/
theorem triggerLoop_nonexclusive (e : IExtension) (pt : List Char) (ts : List (List Char))
    (q : Query) (hx : e.runExclusive = false) :
    (triggerLoop e pt ts q).2.2 = false
      ∧ (triggerLoop e pt ts q).1.searchTerm = q.searchTerm
      ∧ (triggerLoop e pt ts q).1.matches_
          = q.matches_ ++ handleQueryMatches (triggerLoop e pt ts q).2.1
      ∧ (∀ ev ∈ (triggerLoop e pt ts q).2.1, ∃ ms, ev = Event.handleQuery e.addr ms)
      ∧ (pt ∈ ts → ∃ ms, (triggerLoop e pt ts q).2.1.head? = some (Event.handleQuery e.addr ms)) := by
  induction ts generalizing q with
  | nil => simp [triggerLoop, handleQueryMatches]
  | cons t rest ih =>
    by_cases ht : t = pt
    · obtain ⟨h1, h2, h3, h4, _⟩ := ih (q.addMatches (e.handleQuery q))
      simp only [triggerLoop, ht, hx, if_true, Bool.false_eq_true, if_false]
      refine ⟨h1, ?_, ?_, ?_, ?_⟩
      · simpa [Query.addMatches] using h2
      · rw [h3]
        simp [handleQueryMatches, Query.addMatches]
      · intro ev hev
        rcases List.mem_cons.1 hev with h5 | h5
        · exact ⟨_, h5⟩
        · exact h4 ev h5
      · intro _
        exact ⟨_, rfl⟩
    · obtain ⟨h1, h2, h3, h4, h5⟩ := ih q
      simp only [triggerLoop, ht, if_false]
      refine ⟨h1, h2, h3, h4, ?_⟩
      intro hm
      rcases List.mem_cons.1 hm with h6 | h6
      · exact absurd h6.symm ht
      · exact h5 h6

/-! ## The trigger phase -/

theorem triggerPhase_cons_skip (pt : List Char) (e : IExtension) (es : List IExtension)
    (q : Query) (h : triggered pt e = false) :
    triggerPhase pt (e :: es) q = triggerPhase pt es q := by
  cases hto : e.isTriggerOnly with
  | false => simp [triggerPhase, hto]
  | true =>
    have hm : pt ∉ e.triggers := by simpa [triggered, hto] using h
    simp [triggerPhase, hto, triggerLoop_not_mem e pt e.triggers q hm]

theorem triggerPhase_cons_exclusive (pt : List Char) (e : IExtension) (es : List IExtension)
    (q : Query) (h : exclusivelyTriggered pt e = true) :
    triggerPhase pt (e :: es) q
      = (q.addMatches (e.handleQuery q),
          [Event.handleQuery e.addr (e.handleQuery q),
            Event.newModel (some (q.addMatches (e.handleQuery q)).matches_)], true) := by
  simp only [exclusivelyTriggered, triggered, Bool.and_eq_true, decide_eq_true_eq] at h
  obtain ⟨⟨hto, hm⟩, hx⟩ := h
  simp [triggerPhase, hto, triggerLoop_exclusive e pt e.triggers q hm hx]

theorem triggerPhase_cons_nonexclusive (pt : List Char) (e : IExtension)
    (es : List IExtension) (q : Query) (hto : e.isTriggerOnly = true)
    (hx : e.runExclusive = false) :
    triggerPhase pt (e :: es) q
      = ((triggerPhase pt es (triggerLoop e pt e.triggers q).1).1,
          (triggerLoop e pt e.triggers q).2.1
            ++ (triggerPhase pt es (triggerLoop e pt e.triggers q).1).2.1,
          (triggerPhase pt es (triggerLoop e pt e.triggers q).1).2.2) := by
  have h := (triggerLoop_nonexclusive e pt e.triggers q hx).1
  simp [triggerPhase, hto, h]

/-- The phase returns early exactly when some registered extension is triggered and
exclusive. -/
theorem triggerPhase_returned (pt : List Char) (exts : List IExtension) (q : Query) :
    (triggerPhase pt exts q).2.2 = exts.any (exclusivelyTriggered pt) := by
  induction exts generalizing q with
  | nil => rfl
  | cons e es ih =>
    cases hxt : exclusivelyTriggered pt e with
    | true => simp [triggerPhase_cons_exclusive pt e es q hxt, hxt]
    | false =>
      cases ht : triggered pt e with
      | false => simp [triggerPhase_cons_skip pt e es q ht, hxt, ih]
      | true =>
        have hto : e.isTriggerOnly = true := by
          simp only [triggered, Bool.and_eq_true] at ht
          exact ht.1
        have hx : e.runExclusive = false := by simpa [exclusivelyTriggered, ht] using hxt
        simp [triggerPhase_cons_nonexclusive pt e es q hto hx, hxt, ih]

/-- The accumulator after the phase is the one before it followed by what the
`handleQuery` calls of the phase appended; the term is untouched. -/
theorem triggerPhase_matches (pt : List Char) (exts : List IExtension) (q : Query) :
    (triggerPhase pt exts q).1.searchTerm = q.searchTerm
      ∧ (triggerPhase pt exts q).1.matches_
          = q.matches_ ++ handleQueryMatches (triggerPhase pt exts q).2.1 := by
  induction exts generalizing q with
  | nil => simp [triggerPhase, handleQueryMatches]
  | cons e es ih =>
    cases hxt : exclusivelyTriggered pt e with
    | true =>
      simp [triggerPhase_cons_exclusive pt e es q hxt, Query.addMatches, handleQueryMatches]
    | false =>
      cases ht : triggered pt e with
      | false => simpa [triggerPhase_cons_skip pt e es q ht] using ih q
      | true =>
        have hto : e.isTriggerOnly = true := by
          simp only [triggered, Bool.and_eq_true] at ht
          exact ht.1
        have hx : e.runExclusive = false := by simpa [exclusivelyTriggered, ht] using hxt
        obtain ⟨_, h2, h3, _, _⟩ := triggerLoop_nonexclusive e pt e.triggers q hx
        obtain ⟨i1, i2⟩ := ih (triggerLoop e pt e.triggers q).1
        rw [triggerPhase_cons_nonexclusive pt e es q hto hx]
        refine ⟨by simpa [h2] using i1, ?_⟩
        simp only [i2, h3, handleQueryMatches_append, List.append_assoc]

/-- Every effect of the trigger phase is a `handleQuery` call on a registered triggered
extension, or the `newModel` signal of the early return. -/
theorem triggerPhase_events (pt : List Char) (exts : List IExtension) (q : Query) :
    ∀ ev ∈ (triggerPhase pt exts q).2.1,
      (∃ x ∈ exts, triggered pt x = true ∧ ∃ ms, ev = Event.handleQuery x.addr ms)
        ∨ ((triggerPhase pt exts q).2.2 = true ∧ ∃ md, ev = Event.newModel (some md)) := by
  induction exts generalizing q with
  | nil => simp [triggerPhase]
  | cons e es ih =>
    cases hxt : exclusivelyTriggered pt e with
    | true =>
      have ht : triggered pt e = true := by
        simp only [exclusivelyTriggered, Bool.and_eq_true] at hxt
        exact hxt.1
      rw [triggerPhase_cons_exclusive pt e es q hxt]
      intro ev hev
      simp only [List.mem_cons, List.mem_singleton, List.not_mem_nil, or_false] at hev
      rcases hev with h | h
      · exact Or.inl ⟨e, by simp, ht, _, h⟩
      · exact Or.inr ⟨rfl, _, h⟩
    | false =>
      cases ht : triggered pt e with
      | false =>
        rw [triggerPhase_cons_skip pt e es q ht]
        intro ev hev
        rcases ih q ev hev with ⟨x, hx, h1, h2⟩ | h
        · exact Or.inl ⟨x, List.mem_cons_of_mem _ hx, h1, h2⟩
        · exact Or.inr h
      | true =>
        have hto : e.isTriggerOnly = true := by
          simp only [triggered, Bool.and_eq_true] at ht
          exact ht.1
        have hx : e.runExclusive = false := by simpa [exclusivelyTriggered, ht] using hxt
        obtain ⟨_, _, _, h4, _⟩ := triggerLoop_nonexclusive e pt e.triggers q hx
        rw [triggerPhase_cons_nonexclusive pt e es q hto hx]
        intro ev hev
        rcases List.mem_append.1 hev with h | h
        · exact Or.inl ⟨e, by simp, ht, h4 ev h⟩
        · rcases ih _ ev h with ⟨x, hx1, h1, h2⟩ | h5
          · exact Or.inl ⟨x, List.mem_cons_of_mem _ hx1, h1, h2⟩
          · exact Or.inr h5

/-- As long as no extension of `pre` is triggered and exclusive, the phase runs through
`pre` and goes on with the rest of the registry; the effects on `pre` are `handleQuery`
calls on its triggered extensions, none of them exclusive. -/
theorem triggerPhase_append (pt : List Char) (pre rest : List IExtension) (q : Query)
    (h : ∀ x ∈ pre, exclusivelyTriggered pt x = false) :
    triggerPhase pt (pre ++ rest) q
        = ((triggerPhase pt rest (triggerPhase pt pre q).1).1,
            (triggerPhase pt pre q).2.1 ++ (triggerPhase pt rest (triggerPhase pt pre q).1).2.1,
            (triggerPhase pt rest (triggerPhase pt pre q).1).2.2)
      ∧ (∀ ev ∈ (triggerPhase pt pre q).2.1, ∃ x ∈ pre, triggered pt x = true
          ∧ x.runExclusive = false ∧ ∃ ms, ev = Event.handleQuery x.addr ms)
      ∧ ((∀ x ∈ pre, triggered pt x = false) → triggerPhase pt pre q = (q, [], false)) := by
  induction pre generalizing q with
  | nil => simp [triggerPhase]
  | cons e es ih =>
    have hxt : exclusivelyTriggered pt e = false := h e (by simp)
    have hes : ∀ x ∈ es, exclusivelyTriggered pt x = false :=
      fun x hx => h x (List.mem_cons_of_mem _ hx)
    cases ht : triggered pt e with
    | false =>
      obtain ⟨i1, i2, i3⟩ := ih q hes
      rw [List.cons_append, triggerPhase_cons_skip pt e (es ++ rest) q ht,
        triggerPhase_cons_skip pt e es q ht]
      refine ⟨i1, ?_, ?_⟩
      · intro ev hev
        obtain ⟨x, hx, r⟩ := i2 ev hev
        exact ⟨x, List.mem_cons_of_mem _ hx, r⟩
      · intro hall
        exact i3 (fun x hx => hall x (List.mem_cons_of_mem _ hx))
    | true =>
      have hto : e.isTriggerOnly = true := by
        simp only [triggered, Bool.and_eq_true] at ht
        exact ht.1
      have hx : e.runExclusive = false := by simpa [exclusivelyTriggered, ht] using hxt
      obtain ⟨_, _, _, h4, _⟩ := triggerLoop_nonexclusive e pt e.triggers q hx
      obtain ⟨i1, i2, _⟩ := ih (triggerLoop e pt e.triggers q).1 hes
      rw [List.cons_append, triggerPhase_cons_nonexclusive pt e (es ++ rest) q hto hx,
        triggerPhase_cons_nonexclusive pt e es q hto hx, i1]
      refine ⟨by simp, ?_, ?_⟩
      · intro ev hev
        rcases List.mem_append.1 hev with h5 | h5
        · exact ⟨e, by simp, ht, hx, h4 ev h5⟩
        · obtain ⟨x, hx1, r⟩ := i2 ev h5
          exact ⟨x, List.mem_cons_of_mem _ hx1, r⟩
      · intro hall
        have := hall e (by simp)
        rw [ht] at this
        exact absurd this (by simp)

/-! ## The global and the fallback phase -/

theorem triggerPhase_handleQueryCalls (pt : List Char) (exts : List IExtension) (q : Query) :
    ∀ a ∈ handleQueryCalls (triggerPhase pt exts q).2.1,
      ∃ x ∈ exts, triggered pt x = true ∧ x.addr = a := by
  intro a ha
  simp only [handleQueryCalls, List.mem_filterMap] at ha
  obtain ⟨ev, hev, hf⟩ := ha
  rcases triggerPhase_events pt exts q ev hev with ⟨x, hx, ht, ms, rfl⟩ | ⟨_, md, rfl⟩
  · simp only [Option.some.injEq] at hf
    exact ⟨x, hx, ht, hf⟩
  · simp at hf

theorem triggerPhase_handleFallbackQueryCalls (pt : List Char) (exts : List IExtension)
    (q : Query) : handleFallbackQueryCalls (triggerPhase pt exts q).2.1 = [] := by
  simp only [handleFallbackQueryCalls, List.filterMap_eq_nil_iff]
  intro ev hev
  rcases triggerPhase_events pt exts q ev hev with ⟨x, _, _, ms, rfl⟩ | ⟨_, md, rfl⟩ <;> rfl

theorem globalPhase_handleQueryCalls (exts : List IExtension) (q : Query) :
    handleQueryCalls (globalPhase exts q).2
      = (exts.filter (fun e => !e.isTriggerOnly)).map (fun e => e.addr) := by
  induction exts generalizing q with
  | nil => rfl
  | cons e es ih =>
    cases hto : e.isTriggerOnly with
    | false =>
      have := ih (q.addMatches (e.handleQuery q))
      simp only [handleQueryCalls] at this
      simp [globalPhase, hto, handleQueryCalls, this]
    | true => simpa [globalPhase, hto] using ih q

theorem globalPhase_matches (exts : List IExtension) (q : Query) :
    (globalPhase exts q).1.searchTerm = q.searchTerm
      ∧ (globalPhase exts q).1.matches_ = q.matches_ ++ handleQueryMatches (globalPhase exts q).2 := by
  induction exts generalizing q with
  | nil => simp [globalPhase, handleQueryMatches]
  | cons e es ih =>
    cases hto : e.isTriggerOnly with
    | false =>
      obtain ⟨i1, i2⟩ := ih (q.addMatches (e.handleQuery q))
      simp only [globalPhase, hto, Bool.not_false, if_true]
      refine ⟨by simpa [Query.addMatches] using i1, ?_⟩
      rw [i2]
      simp [handleQueryMatches, Query.addMatches]
    | true => simpa [globalPhase, hto] using ih q

theorem globalPhase_other (exts : List IExtension) (q : Query) :
    handleFallbackQueryCalls (globalPhase exts q).2 = []
      ∧ newModels (globalPhase exts q).2 = [] := by
  induction exts generalizing q with
  | nil => simp [globalPhase, handleFallbackQueryCalls, newModels]
  | cons e es ih =>
    cases hto : e.isTriggerOnly with
    | false =>
      have := ih (q.addMatches (e.handleQuery q))
      simp only [handleFallbackQueryCalls, newModels] at this
      simp [globalPhase, hto, handleFallbackQueryCalls, newModels, this]
    | true => simpa [globalPhase, hto] using ih q

theorem fallbackPhase_calls (exts : List IExtension) (q : Query) :
    handleFallbackQueryCalls (fallbackPhase exts q).2 = exts.map (fun e => e.addr)
      ∧ handleQueryCalls (fallbackPhase exts q).2 = []
      ∧ handleQueryMatches (fallbackPhase exts q).2 = []
      ∧ newModels (fallbackPhase exts q).2 = [] := by
  induction exts generalizing q with
  | nil => simp [fallbackPhase, handleFallbackQueryCalls, handleQueryCalls, newModels,
      handleQueryMatches]
  | cons e es ih =>
    have := ih (q.addMatches (e.handleFallbackQuery q))
    simp only [handleFallbackQueryCalls, handleQueryCalls, newModels] at this
    simp [fallbackPhase, handleFallbackQueryCalls, handleQueryCalls, newModels,
      handleQueryMatches, this]

/-! ## The shape of a dispatch -/

/-- The dispatch of a term that is not empty after trimming, phase by phase. -/
theorem startQuery_eq (m : ExtensionManager) (searchTerm : List Char)
    (h : QString_trimmed searchTerm ≠ []) :
    startQuery m searchTerm
      = (let q0 : Query := { searchTerm := QString_trimmed searchTerm, matches_ := [] }
         let r1 := triggerPhase (potentialTriggerOf searchTerm) m.extensions_ q0
         if r1.2.2 = true then ({ m with currentQuery_ := some r1.1 }, r1.2.1)
         else
           let r2 := globalPhase m.extensions_ r1.1
           if r2.1.matches_ = [] then
             ({ m with currentQuery_ := some (fallbackPhase m.extensions_ r2.1).1 },
               r1.2.1 ++ r2.2 ++ (fallbackPhase m.extensions_ r2.1).2
                 ++ [Event.newModel (some (fallbackPhase m.extensions_ r2.1).1.matches_)])
           else
             let q3 : Query := { r2.1 with matches_ := stable_sort comparator r2.1.matches_ }
             ({ m with currentQuery_ := some q3 },
               r1.2.1 ++ r2.2
                 ++ [Event.newModel (some (stable_sort comparator r2.1.matches_))])) := by
  simp [startQuery, potentialTriggerOf, h, List.length_eq_zero]

theorem distinctAddrs_eq_of_addr {exts : List IExtension} (hd : DistinctAddrs exts)
    {x y : IExtension} (hx : x ∈ exts) (hy : y ∈ exts) (h : x.addr = y.addr) : x = y :=
  List.inj_on_of_nodup_map hd hx hy h

theorem startQuery_handleQueryCalls (m : ExtensionManager) (searchTerm : List Char)
    (h : QString_trimmed searchTerm ≠ []) :
    handleQueryCalls (startQuery m searchTerm).2
      = handleQueryCalls (triggerPhase (potentialTriggerOf searchTerm) m.extensions_
            { searchTerm := QString_trimmed searchTerm, matches_ := [] }).2.1
        ++ (if m.extensions_.any (exclusivelyTriggered (potentialTriggerOf searchTerm)) = true
            then []
            else (m.extensions_.filter (fun e => !e.isTriggerOnly)).map (fun e => e.addr)) := by
  rw [startQuery_eq m searchTerm h]
  simp only [triggerPhase_returned]
  split
  · simp
  · split
    · simp only [handleQueryCalls_append, globalPhase_handleQueryCalls,
        (fallbackPhase_calls _ _).2.1]
      simp [handleQueryCalls]
    · simp only [handleQueryCalls_append, globalPhase_handleQueryCalls]
      simp [handleQueryCalls]

theorem startQuery_handleQueryMatches (m : ExtensionManager) (searchTerm : List Char)
    (h : QString_trimmed searchTerm ≠ [])
    (hx : m.extensions_.any (exclusivelyTriggered (potentialTriggerOf searchTerm)) = false) :
    handleQueryMatches (startQuery m searchTerm).2
      = (globalPhase m.extensions_
          (triggerPhase (potentialTriggerOf searchTerm) m.extensions_
            { searchTerm := QString_trimmed searchTerm, matches_ := [] }).1).1.matches_ := by
  rw [startQuery_eq m searchTerm h]
  simp only [triggerPhase_returned, hx]
  have h1 := (triggerPhase_matches (potentialTriggerOf searchTerm) m.extensions_
    { searchTerm := QString_trimmed searchTerm, matches_ := [] }).2
  have h2 := (globalPhase_matches m.extensions_
    (triggerPhase (potentialTriggerOf searchTerm) m.extensions_
      { searchTerm := QString_trimmed searchTerm, matches_ := [] }).1).2
  simp only [List.nil_append] at h1
  rw [h2, h1]
  simp only [Bool.false_eq_true, if_false]
  split
  · simp only [handleQueryMatches_append, (fallbackPhase_calls _ _).2.2.1]
    simp [handleQueryMatches]
  · simp only [handleQueryMatches_append]
    simp [handleQueryMatches]

theorem startQuery_handleFallbackQueryCalls (m : ExtensionManager)
    (searchTerm : List Char) (h : QString_trimmed searchTerm ≠ []) :
    handleFallbackQueryCalls (startQuery m searchTerm).2
      = (if m.extensions_.any (exclusivelyTriggered (potentialTriggerOf searchTerm)) = true
         then []
         else if (globalPhase m.extensions_
            (triggerPhase (potentialTriggerOf searchTerm) m.extensions_
              { searchTerm := QString_trimmed searchTerm, matches_ := [] }).1).1.matches_ = []
         then m.extensions_.map (fun e => e.addr)
         else []) := by
  rw [startQuery_eq m searchTerm h]
  simp only [triggerPhase_returned]
  split
  · exact triggerPhase_handleFallbackQueryCalls _ _ _
  · split
    · simp only [handleFallbackQueryCalls_append, triggerPhase_handleFallbackQueryCalls,
        (globalPhase_other _ _).1, (fallbackPhase_calls _ _).1]
      simp [handleFallbackQueryCalls]
    · simp only [handleFallbackQueryCalls_append, triggerPhase_handleFallbackQueryCalls,
        (globalPhase_other _ _).1]
      simp [handleFallbackQueryCalls]

theorem count_addr_eq_one {exts : List IExtension} (hd : DistinctAddrs exts)
    (p : IExtension → Bool) {e : IExtension} (he : e ∈ exts) (hp : p e = true) :
    ((exts.filter p).map (fun x => x.addr)).count e.addr = 1 := by
  apply List.count_eq_one_of_mem
  · exact List.Nodup.sublist ((List.filter_sublist exts).map _) hd
  · exact List.mem_map.2 ⟨e, List.mem_filter.2 ⟨he, hp⟩, rfl⟩

theorem not_called_in_triggerPhase {exts : List IExtension} (hd : DistinctAddrs exts)
    (pt : List Char) (q : Query) {e : IExtension} (he : e ∈ exts)
    (ht : triggered pt e = false) :
    e.addr ∉ handleQueryCalls (triggerPhase pt exts q).2.1 := by
  intro hmem
  obtain ⟨x, hx, hxt, hxa⟩ := triggerPhase_handleQueryCalls pt exts q e.addr hmem
  have : x = e := distinctAddrs_eq_of_addr hd hx he hxa
  rw [this, ht] at hxt
  exact absurd hxt (by simp)

theorem called_in_triggerPhase (pt : List Char) (pre post : List IExtension)
    (e : IExtension) (q : Query) (hpre : ∀ x ∈ pre, exclusivelyTriggered pt x = false)
    (ht : triggered pt e = true) :
    e.addr ∈ handleQueryCalls (triggerPhase pt (pre ++ e :: post) q).2.1 := by
  rw [(triggerPhase_append pt pre (e :: post) q hpre).1]
  simp only [handleQueryCalls_append, List.mem_append]
  right
  have hto : e.isTriggerOnly = true := by
    simp only [triggered, Bool.and_eq_true] at ht
    exact ht.1
  have hm : pt ∈ e.triggers := by
    simp only [triggered, Bool.and_eq_true, decide_eq_true_eq] at ht
    exact ht.2
  cases hx : e.runExclusive with
  | true =>
    have hxt : exclusivelyTriggered pt e = true := by simp [exclusivelyTriggered, ht, hx]
    rw [triggerPhase_cons_exclusive pt e post _ hxt]
    simp [handleQueryCalls]
  | false =>
    rw [triggerPhase_cons_nonexclusive pt e post _ hto hx]
    obtain ⟨_, _, _, _, h5⟩ := triggerLoop_nonexclusive e pt e.triggers (triggerPhase pt pre q).1 hx
    obtain ⟨ms, hms⟩ := h5 hm
    simp only [handleQueryCalls_append, List.mem_append]
    left
    simp only [handleQueryCalls, List.mem_filterMap]
    exact ⟨Event.handleQuery e.addr ms, List.mem_of_mem_head? hms, rfl⟩

/-! ## The registry -/

theorem set_count_ne_zero_iff (m : ExtensionManager) (e : IExtension) :
    set_count m.extensions_ e ≠ 0 ↔ registered m e := by
  simp [set_count, registered, List.countP_eq_zero]

theorem mem_set_insert {xs : List IExtension} {e x : IExtension}
    (h : x ∈ set_insert xs e) : x = e ∨ x ∈ xs := by
  induction xs with
  | nil => simpa [set_insert] using h
  | cons y ys ih =>
    simp only [set_insert] at h
    split at h
    · simpa using h
    · split at h
      · exact Or.inr h
      · rcases List.mem_cons.1 h with h1 | h1
        · exact Or.inr (by simp [h1])
        · rcases ih h1 with h2 | h2
          · exact Or.inl h2
          · exact Or.inr (List.mem_cons_of_mem _ h2)

theorem set_insert_perm {xs : List IExtension} {e : IExtension}
    (h : ∀ x ∈ xs, x.addr ≠ e.addr) : (set_insert xs e).Perm (e :: xs) := by
  induction xs with
  | nil => simp [set_insert]
  | cons y ys ih =>
    have hy : ¬ e.addr = y.addr := fun h1 => h y (by simp) h1.symm
    simp only [set_insert, hy, if_false]
    split
    · exact List.Perm.refl _
    · exact ((ih (fun x hx => h x (List.mem_cons_of_mem _ hx))).cons y).trans
        (List.Perm.swap e y ys)

theorem set_insert_sorted {xs : List IExtension} (e : IExtension) (hs : AddrSorted xs) :
    AddrSorted (set_insert xs e) := by
  induction xs with
  | nil => simp [set_insert, AddrSorted]
  | cons y ys ih =>
    simp only [AddrSorted, List.pairwise_cons] at hs
    simp only [set_insert]
    split
    · rename_i hlt
      simp only [AddrSorted, List.pairwise_cons]
      refine ⟨?_, hs⟩
      intro a ha
      rcases List.mem_cons.1 ha with h1 | h1
      · rw [h1]; exact hlt
      · exact Nat.lt_trans hlt (hs.1 a h1)
    · split
      · simpa [AddrSorted] using hs
      · rename_i h1 h2
        simp only [AddrSorted, List.pairwise_cons]
        refine ⟨?_, ih hs.2⟩
        intro a ha
        rcases mem_set_insert ha with h3 | h3
        · rw [h3]; omega
        · exact hs.1 a h3

theorem set_erase_sorted {xs : List IExtension} (e : IExtension) (hs : AddrSorted xs) :
    AddrSorted (set_erase xs e) :=
  List.Pairwise.filter _ hs

theorem set_erase_perm {xs : List IExtension} {e : IExtension} (hs : AddrSorted xs)
    (h : ∃ x ∈ xs, x.addr = e.addr) :
    ∃ x, x.addr = e.addr ∧ xs.Perm (x :: set_erase xs e) := by
  induction xs with
  | nil => simp at h
  | cons y ys ih =>
    simp only [AddrSorted, List.pairwise_cons] at hs
    by_cases hy : y.addr = e.addr
    · refine ⟨y, hy, ?_⟩
      have : set_erase (y :: ys) e = ys := by
        simp only [set_erase, List.filter_cons, hy, bne_self_eq_false, Bool.false_eq_true,
          if_false]
        apply List.filter_eq_self.2
        intro a ha
        have := hs.1 a ha
        simp only [bne_iff_ne, ne_eq]
        omega
      rw [this]
    · obtain ⟨x, hx, hxa⟩ := h
      have hx1 : x ∈ ys := by
        rcases List.mem_cons.1 hx with h1 | h1
        · rw [h1] at hxa; exact absurd hxa hy
        · exact h1
      obtain ⟨z, hz, hperm⟩ := ih hs.2 ⟨x, hx1, hxa⟩
      refine ⟨z, hz, ?_⟩
      have : set_erase (y :: ys) e = y :: set_erase ys e := by
        simp [set_erase, List.filter_cons, hy]
      rw [this]
      exact (hperm.cons y).trans (List.Perm.swap z y _)

theorem addrSorted_distinct {xs : List IExtension} (hs : AddrSorted xs) :
    DistinctAddrs xs := by
  simp only [DistinctAddrs, List.Nodup, List.pairwise_map]
  exact List.Pairwise.imp (fun h => Nat.ne_of_lt h) hs

theorem registerExtension_sorted (m : ExtensionManager) (o : QObject)
    (hs : AddrSorted m.extensions_) : AddrSorted (registerExtension m o).1.extensions_ := by
  unfold registerExtension
  split
  · split
    · exact hs
    · exact set_insert_sorted _ hs
  · exact hs

theorem unregisterExtension_sorted (m : ExtensionManager) (o : QObject)
    (hs : AddrSorted m.extensions_) : AddrSorted (unregisterExtension m o).1.extensions_ := by
  unfold unregisterExtension
  split
  · split
    · exact hs
    · exact set_erase_sorted _ hs
  · exact hs

theorem runRegistryCalls_sorted (m : ExtensionManager) (calls : List RegistryCall)
    (hs : AddrSorted m.extensions_) : AddrSorted (runRegistryCalls m calls).extensions_ := by
  induction calls generalizing m with
  | nil => exact hs
  | cons c cs ih =>
    cases c with
    | register o => exact ih _ (registerExtension_sorted m o hs)
    | unregister o => exact ih _ (unregisterExtension_sorted m o hs)

/-! ## Claims -/

/-- C7: a search term that is empty after trimming publishes one null model and nothing
else: the manager (its current query included) is unchanged and no extension is called. -/
theorem startQuery_empty_term (m : ExtensionManager) (searchTerm : List Char)
    (h : QString_trimmed searchTerm = []) :
    startQuery m searchTerm = (m, [Event.newModel none]) := by
  simp [startQuery, h]

theorem startQuery_empty_term_witness :
    (QString_trimmed "".toList = [] ∧ QString_trimmed "  ".toList = [])
      ∧ startQuery busyManager "".toList = (busyManager, [Event.newModel none])
      ∧ startQuery busyManager "  ".toList = (busyManager, [Event.newModel none]) :=
  ⟨⟨by decide, by decide⟩, startQuery_empty_term busyManager "".toList (by decide),
    startQuery_empty_term busyManager "  ".toList (by decide)⟩

/-- C2: the comparator is not the descending lexicographic order: for a match with the
higher usage count and a match with the higher importance it answers true in both
directions, where the lexicographic order puts the more important match first. -/
theorem comparator_not_lexicographic :
    comparator rankA1 rankB = true ∧ lexDescending rankA1 rankB = false
      ∧ comparator rankB rankA1 = true := by
  decide

/-- C6: with four global extensions contributing `rankA1`, `rankB`, `rankA2`, `rankC` in
this order, the published list holds `rankA2` before `rankA1`, although both have the same
importance, usage count and score and `rankA1` was appended first. -/
theorem startQuery_ranking_swaps_equal_keys :
    (startQuery rankingManager "x".toList).2
        = [Event.handleQuery 1 [rankA1], Event.handleQuery 2 [rankB],
            Event.handleQuery 3 [rankA2], Event.handleQuery 4 [rankC],
            Event.newModel (some [rankA2, rankB, rankA1, rankC])]
      ∧ rankA1.importance = rankA2.importance ∧ rankA1.usageCount = rankA2.usageCount
      ∧ rankA1.score = rankA2.score := by
  decide

/-- C5: when no registered extension is triggered and exclusive, `handleQuery` is called
exactly once on every global extension; when one is, it is called on no global extension. -/
theorem startQuery_global_phase (m : ExtensionManager) (searchTerm : List Char)
    (hne : QString_trimmed searchTerm ≠ []) (hd : DistinctAddrs m.extensions_) :
    ((∀ x ∈ m.extensions_, exclusivelyTriggered (potentialTriggerOf searchTerm) x = false) →
        ∀ e ∈ m.extensions_, e.isTriggerOnly = false →
          (handleQueryCalls (startQuery m searchTerm).2).count e.addr = 1)
      ∧ ((∃ x ∈ m.extensions_, exclusivelyTriggered (potentialTriggerOf searchTerm) x = true) →
        ∀ e ∈ m.extensions_, e.isTriggerOnly = false →
          e.addr ∉ handleQueryCalls (startQuery m searchTerm).2) := by
  have hnot : ∀ e ∈ m.extensions_, e.isTriggerOnly = false →
      e.addr ∉ handleQueryCalls (triggerPhase (potentialTriggerOf searchTerm) m.extensions_
        { searchTerm := QString_trimmed searchTerm, matches_ := [] }).2.1 := by
    intro e he hto
    exact not_called_in_triggerPhase hd _ _ he (by simp [triggered, hto])
  constructor
  · intro hall e he hto
    have hany : m.extensions_.any (exclusivelyTriggered (potentialTriggerOf searchTerm))
        = false := by
      simpa [List.any_eq_false] using hall
    rw [startQuery_handleQueryCalls m searchTerm hne, hany, List.count_append,
      List.count_eq_zero_of_not_mem (hnot e he hto)]
    simpa using count_addr_eq_one hd (fun x => !x.isTriggerOnly) he (by simp [hto])
  · intro hex e he hto
    have hany : m.extensions_.any (exclusivelyTriggered (potentialTriggerOf searchTerm))
        = true := by
      simpa [List.any_eq_true] using hex
    rw [startQuery_handleQueryCalls m searchTerm hne, hany]
    simpa using hnot e he hto

theorem startQuery_global_phase_witness :
    (∀ e ∈ [goHelper, globalThree], e.isTriggerOnly = false →
        (handleQueryCalls (startQuery ⟨[goHelper, globalThree], none⟩ "go x".toList).2).count
          e.addr = 1)
      ∧ (∀ e ∈ [goExclusive, globalThree], e.isTriggerOnly = false →
        e.addr ∉ handleQueryCalls (startQuery ⟨[goExclusive, globalThree], none⟩ "go x".toList).2) :=
  ⟨(startQuery_global_phase ⟨[goHelper, globalThree], none⟩ "go x".toList (by decide)
      (by decide)).1 (by decide),
    (startQuery_global_phase ⟨[goExclusive, globalThree], none⟩ "go x".toList (by decide)
      (by decide)).2 ⟨goExclusive, by simp, by decide⟩⟩

/-- C4: a registered trigger extension `e` is never asked when none of its triggers equals
the first section of the trimmed term, and is asked when one does and no extension before
it in the registry is triggered and exclusive. The first section is the part of the
trimmed term before its first space, the whole trimmed term when it has none. With the
trigger `calc` the extension is asked for `calc 2+2` and for `calc`, not for
`calculate 2+2`. An extension without triggers is not called in the trigger phase. -/
theorem startQuery_trigger_exact_match (m : ExtensionManager) (pre post : List IExtension)
    (e : IExtension) (hreg : m.extensions_ = pre ++ e :: post)
    (hd : DistinctAddrs m.extensions_) (hto : e.isTriggerOnly = true) :
    (∀ searchTerm, QString_trimmed searchTerm ≠ [] →
        (potentialTriggerOf searchTerm ∉ e.triggers →
            e.addr ∉ handleQueryCalls (startQuery m searchTerm).2)
          ∧ (potentialTriggerOf searchTerm ∈ e.triggers →
              (∀ x ∈ pre, exclusivelyTriggered (potentialTriggerOf searchTerm) x = false) →
              e.addr ∈ handleQueryCalls (startQuery m searchTerm).2))
      ∧ (∀ searchTerm, ' ' ∉ potentialTriggerOf searchTerm
          ∧ ∃ rest, QString_trimmed searchTerm = potentialTriggerOf searchTerm ++ rest
              ∧ (rest = [] ∨ rest.head? = some ' '))
      ∧ (e.triggers = ["calc".toList] →
          ((∀ x ∈ pre, exclusivelyTriggered "calc".toList x = false) →
              e.addr ∈ handleQueryCalls (startQuery m "calc 2+2".toList).2
                ∧ e.addr ∈ handleQueryCalls (startQuery m "calc".toList).2)
            ∧ e.addr ∉ handleQueryCalls (startQuery m "calculate 2+2".toList).2)
      ∧ (∀ x ∈ m.extensions_, x.triggers = [] → ∀ pt q,
          x.addr ∉ handleQueryCalls (triggerPhase pt m.extensions_ q).2.1) := by
  have he : e ∈ m.extensions_ := by simp [hreg]
  have hgen : ∀ searchTerm, QString_trimmed searchTerm ≠ [] →
      (potentialTriggerOf searchTerm ∉ e.triggers →
          e.addr ∉ handleQueryCalls (startQuery m searchTerm).2)
        ∧ (potentialTriggerOf searchTerm ∈ e.triggers →
            (∀ x ∈ pre, exclusivelyTriggered (potentialTriggerOf searchTerm) x = false) →
            e.addr ∈ handleQueryCalls (startQuery m searchTerm).2) := by
    intro searchTerm hne
    constructor
    · intro hnm
      have ht : triggered (potentialTriggerOf searchTerm) e = false := by
        simp [triggered, hnm]
      rw [startQuery_handleQueryCalls m searchTerm hne, List.mem_append]
      rintro (h | h)
      · exact not_called_in_triggerPhase hd _ _ he ht h
      · split at h
        · simp at h
        · simp only [List.mem_map, List.mem_filter] at h
          obtain ⟨x, ⟨hx, hxg⟩, hxa⟩ := h
          have : x = e := distinctAddrs_eq_of_addr hd hx he hxa
          rw [this, hto] at hxg
          simp at hxg
    · intro hm hpre
      have ht : triggered (potentialTriggerOf searchTerm) e = true := by
        simp [triggered, hm, hto]
      rw [startQuery_handleQueryCalls m searchTerm hne, List.mem_append, hreg]
      exact Or.inl (called_in_triggerPhase _ pre post e _ hpre ht)
  refine ⟨hgen, fun searchTerm => QString_section_0_0_spec (QString_trimmed searchTerm),
    ?_, ?_⟩
  · intro htr
    have p1 : potentialTriggerOf "calc 2+2".toList = "calc".toList := by decide
    have p2 : potentialTriggerOf "calc".toList = "calc".toList := by decide
    have p3 : potentialTriggerOf "calculate 2+2".toList = "calculate".toList := by decide
    constructor
    · intro hpre
      constructor
      · exact (hgen "calc 2+2".toList (by decide)).2 (by rw [p1, htr]; simp)
          (by rw [p1]; exact hpre)
      · exact (hgen "calc".toList (by decide)).2 (by rw [p2, htr]; simp)
          (by rw [p2]; exact hpre)
    · exact (hgen "calculate 2+2".toList (by decide)).1 (by rw [p3, htr]; decide)
  · intro x hx hxt pt q
    exact not_called_in_triggerPhase hd pt q hx (by simp [triggered, hxt])

theorem startQuery_trigger_exact_match_witness :
    (calcExtension.addr ∈ handleQueryCalls
        (startQuery ⟨[goHelper, globalThree, calcExtension], none⟩ "calc 2+2".toList).2
      ∧ calcExtension.addr ∈ handleQueryCalls
        (startQuery ⟨[goHelper, globalThree, calcExtension], none⟩ "calc".toList).2
      ∧ calcExtension.addr ∉ handleQueryCalls
        (startQuery ⟨[goHelper, globalThree, calcExtension], none⟩ "calculate 2+2".toList).2)
      ∧ calcExtension.addr ∉ handleQueryCalls
        (startQuery ⟨[goHelper, globalThree, calcExtension], none⟩ " go calc ".toList).2
      ∧ calcExtension.addr ∈ handleQueryCalls
        (startQuery ⟨[goHelper, globalThree, calcExtension], none⟩ "\tcalc  x".toList).2
      ∧ globalThree.addr ∉ handleQueryCalls
        (triggerPhase "go".toList [goHelper, globalThree, calcExtension]
          ⟨"go".toList, []⟩).2.1 :=
  have h := startQuery_trigger_exact_match ⟨[goHelper, globalThree, calcExtension], none⟩
    [goHelper, globalThree] [] calcExtension rfl (by decide) rfl
  have hc := h.2.2.1 rfl
  ⟨⟨(hc.1 (by decide)).1, (hc.1 (by decide)).2, hc.2⟩,
    (h.1 " go calc ".toList (by decide)).1 (by decide),
    (h.1 "\tcalc  x".toList (by decide)).2 (by decide) (by decide),
    h.2.2.2 globalThree (by simp) rfl "go".toList ⟨"go".toList, []⟩⟩

/-- C3, as stated, fails: `goSilent` is triggered by `go`, runs exclusively and appends
nothing, so the trigger and global phase produce zero matches, and yet
`handleFallbackQuery` is called on no extension. -/
theorem startQuery_fallback_counterexample :
    handleQueryMatches (startQuery ⟨[globalThree, goSilent], none⟩ "go".toList).2 = []
      ∧ handleFallbackQueryCalls (startQuery ⟨[globalThree, goSilent], none⟩ "go".toList).2 = []
      ∧ (startQuery ⟨[globalThree, goSilent], none⟩ "go".toList).2
          = [Event.handleQuery 4 [], Event.newModel (some [])] := by
  decide

/-- C3, amended: when no registered extension is triggered and exclusive and the
`handleQuery` calls appended no match, `handleFallbackQuery` is called exactly once on
every registered extension; when an extension is triggered and exclusive, or a match was
appended, `handleFallbackQuery` is called on no extension. -/
theorem startQuery_fallback (m : ExtensionManager) (searchTerm : List Char)
    (hne : QString_trimmed searchTerm ≠ []) (hd : DistinctAddrs m.extensions_) :
    ((∀ x ∈ m.extensions_, exclusivelyTriggered (potentialTriggerOf searchTerm) x = false) →
        handleQueryMatches (startQuery m searchTerm).2 = [] →
        handleFallbackQueryCalls (startQuery m searchTerm).2
            = m.extensions_.map (fun e => e.addr)
          ∧ ∀ e ∈ m.extensions_,
              (handleFallbackQueryCalls (startQuery m searchTerm).2).count e.addr = 1)
      ∧ (((∃ x ∈ m.extensions_, exclusivelyTriggered (potentialTriggerOf searchTerm) x = true)
            ∨ handleQueryMatches (startQuery m searchTerm).2 ≠ []) →
          handleFallbackQueryCalls (startQuery m searchTerm).2 = []) := by
  constructor
  · intro hall hnil
    have hany : m.extensions_.any (exclusivelyTriggered (potentialTriggerOf searchTerm))
        = false := by
      simpa [List.any_eq_false] using hall
    rw [startQuery_handleQueryMatches m searchTerm hne hany] at hnil
    have hcalls : handleFallbackQueryCalls (startQuery m searchTerm).2
        = m.extensions_.map (fun e => e.addr) := by
      rw [startQuery_handleFallbackQueryCalls m searchTerm hne, hany, hnil]
      simp
    refine ⟨hcalls, ?_⟩
    intro e he
    rw [hcalls]
    exact List.count_eq_one_of_mem hd (List.mem_map.2 ⟨e, he, rfl⟩)
  · intro h
    rw [startQuery_handleFallbackQueryCalls m searchTerm hne]
    cases hany : m.extensions_.any (exclusivelyTriggered (potentialTriggerOf searchTerm)) with
    | true => simp
    | false =>
      rcases h with ⟨x, hx, hxt⟩ | h
      · have : m.extensions_.any (exclusivelyTriggered (potentialTriggerOf searchTerm))
            = true := List.any_eq_true.2 ⟨x, hx, hxt⟩
        rw [hany] at this
        exact absurd this (by simp)
      · rw [startQuery_handleQueryMatches m searchTerm hne hany] at h
        simp [h]

theorem startQuery_fallback_witness :
    (∀ e ∈ [goHelper, calcExtension],
        (handleFallbackQueryCalls
          (startQuery ⟨[goHelper, calcExtension], none⟩ "x".toList).2).count e.addr = 1)
      ∧ handleFallbackQueryCalls
          (startQuery ⟨[globalThree, goSilent], none⟩ "go".toList).2 = []
      ∧ handleFallbackQueryCalls
          (startQuery ⟨[goHelper, globalThree], none⟩ "x".toList).2 = [] :=
  ⟨((startQuery_fallback ⟨[goHelper, calcExtension], none⟩ "x".toList (by decide)
      (by decide)).1 (by decide) (by decide)).2,
    (startQuery_fallback ⟨[globalThree, goSilent], none⟩ "go".toList (by decide)
      (by decide)).2 (Or.inl ⟨goSilent, by simp, by decide⟩),
    (startQuery_fallback ⟨[goHelper, globalThree], none⟩ "x".toList (by decide)
      (by decide)).2 (Or.inr (by decide))⟩

/-- C1: `handleQuery` is called on the exclusive `goExclusive`, which appends the one match
with item 20, and the published list is not this output alone. The non-exclusive
`goHelper` has the same trigger `go`; registered at the lower address it is asked first and
its match with item 10 stays in the published list, before the match of `goExclusive`.
The same two extensions with `goExclusive` at the lower address publish the match with
item 20 alone. -/
theorem startQuery_exclusive_keeps_earlier_matches :
    exclusivelyTriggered (potentialTriggerOf "go x".toList) goExclusive = true
      ∧ (startQuery ⟨[goHelper, goExclusive, globalThree], none⟩ "go x".toList).2
        = [Event.handleQuery 1 [{ item := 10, importance := 0, usageCount := 0, score := 1 }],
            Event.handleQuery 2 [{ item := 20, importance := 0, usageCount := 0, score := 5 }],
            Event.newModel (some
              [{ item := 10, importance := 0, usageCount := 0, score := 1 },
               { item := 20, importance := 0, usageCount := 0, score := 5 }])]
      ∧ (startQuery ⟨[goExclusive, globalThree, goHelperHigh], none⟩ "go x".toList).2
        = [Event.handleQuery 2 [{ item := 20, importance := 0, usageCount := 0, score := 5 }],
            Event.newModel (some
              [{ item := 20, importance := 0, usageCount := 0, score := 5 }])] := by
  decide

/-- C9: registering a registered identity logs an error and changes nothing, one
registration remaining; unregistering an identity that is not registered logs an error and
changes nothing; otherwise registering adds the entry and unregistering removes the one
entry of this identity. After any sequence of calls no address occurs twice. -/
theorem registry_register_unregister (m : ExtensionManager) (o : QObject) (e : IExtension)
    (ho : qobject_cast o = some e) (hs : AddrSorted m.extensions_) :
    (registered m e →
        registerExtension m o = (m, [Event.qCritical "Extension registered twice!"])
          ∧ set_count m.extensions_ e = 1)
      ∧ (¬ registered m e →
        unregisterExtension m o = (m, [Event.qCritical
          "Unregistered unregistered extension! (Duplicate unregistration?)"]))
      ∧ (¬ registered m e →
        (registerExtension m o).2 = []
          ∧ (registerExtension m o).1.currentQuery_ = m.currentQuery_
          ∧ (registerExtension m o).1.extensions_.Perm (e :: m.extensions_))
      ∧ (registered m e →
        (unregisterExtension m o).2 = []
          ∧ (unregisterExtension m o).1.currentQuery_ = m.currentQuery_
          ∧ ¬ registered (unregisterExtension m o).1 e
          ∧ ∃ x, x.addr = e.addr
              ∧ m.extensions_.Perm (x :: (unregisterExtension m o).1.extensions_))
      ∧ (∀ calls : List RegistryCall,
          DistinctAddrs (runRegistryCalls m calls).extensions_) := by
  refine ⟨?_, ?_, ?_, ?_, ?_⟩
  · intro hr
    have hc := (set_count_ne_zero_iff m e).2 hr
    refine ⟨by simp [registerExtension, ho, hc], ?_⟩
    obtain ⟨x, hx, hxa⟩ := hr
    have h1 : (m.extensions_.map (fun y => y.addr)).count e.addr = 1 :=
      List.count_eq_one_of_mem (addrSorted_distinct hs) (List.mem_map.2 ⟨x, hx, hxa⟩)
    rw [List.count_eq_countP, List.countP_map] at h1
    exact h1
  · intro hr
    have hc : set_count m.extensions_ e = 0 := by
      by_contra h
      exact hr ((set_count_ne_zero_iff m e).1 h)
    simp [unregisterExtension, ho, hc]
  · intro hr
    have hc : set_count m.extensions_ e = 0 := by
      by_contra h
      exact hr ((set_count_ne_zero_iff m e).1 h)
    have hall : ∀ x ∈ m.extensions_, x.addr ≠ e.addr :=
      fun x hx hxa => hr ⟨x, hx, hxa⟩
    simp only [registerExtension, ho, hc, ne_eq, not_true_eq_false, if_false]
    exact ⟨trivial, trivial, set_insert_perm hall⟩
  · intro hr
    have hc := (set_count_ne_zero_iff m e).2 hr
    simp only [unregisterExtension, ho, hc, if_false]
    refine ⟨trivial, trivial, ?_, set_erase_perm hs hr⟩
    rintro ⟨x, hx, hxa⟩
    simp only [set_erase, List.mem_filter, bne_iff_ne, ne_eq] at hx
    exact hx.2 hxa
  · intro calls
    exact addrSorted_distinct (runRegistryCalls_sorted m calls hs)

theorem registry_register_unregister_witness :
    ((registerExtension ⟨[goHelper, globalThree], none⟩ ⟨some goHelper⟩).2
        = [Event.qCritical "Extension registered twice!"]
      ∧ set_count [goHelper, globalThree] goHelper = 1
      ∧ (unregisterExtension ⟨[goHelper, globalThree], none⟩ ⟨some goHelper⟩).2 = []
      ∧ ¬ registered (unregisterExtension ⟨[goHelper, globalThree], none⟩ ⟨some goHelper⟩).1
          goHelper
      ∧ DistinctAddrs (runRegistryCalls ⟨[goHelper, globalThree], none⟩
          [RegistryCall.register ⟨some goHelper⟩, RegistryCall.register ⟨some calcExtension⟩,
            RegistryCall.unregister ⟨some goSilent⟩]).extensions_)
      ∧ (unregisterExtension ⟨[goHelper, globalThree], none⟩ ⟨some goExclusive⟩).2
          = [Event.qCritical
              "Unregistered unregistered extension! (Duplicate unregistration?)"]
      ∧ (registerExtension ⟨[goHelper, globalThree], none⟩
          ⟨some goExclusive⟩).1.extensions_.Perm [goExclusive, goHelper, globalThree] :=
  have h := registry_register_unregister ⟨[goHelper, globalThree], none⟩ ⟨some goHelper⟩
    goHelper rfl (by decide)
  have hr : registered ⟨[goHelper, globalThree], none⟩ goHelper := ⟨goHelper, by simp, rfl⟩
  have k := registry_register_unregister ⟨[goHelper, globalThree], none⟩ ⟨some goExclusive⟩
    goExclusive rfl (by decide)
  have hk : ¬ registered ⟨[goHelper, globalThree], none⟩ goExclusive := by
    rintro ⟨x, hx, hxa⟩
    simp only [List.mem_cons, List.mem_singleton, List.not_mem_nil, or_false] at hx
    rcases hx with rfl | rfl <;> exact absurd hxa (by decide)
  ⟨⟨by rw [(h.1 hr).1], (h.1 hr).2, (h.2.2.2.1 hr).1, (h.2.2.2.1 hr).2.2.1, h.2.2.2.2 _⟩,
    by rw [k.2.1 hk], (k.2.2.1 hk).2.2⟩

/-- C8, as stated, fails: after `setSessionActive(false)` the current query of
`busyManager` is still set, and `activateIndex(0)` still activates its first match. -/
theorem setSessionActive_false_counterexample :
    (setSessionActive busyManager false).1.currentQuery_ = busyManager.currentQuery_
      ∧ (setSessionActive busyManager false).1.currentQuery_ ≠ none
      ∧ activateIndex (setSessionActive busyManager false).1 0 = some [Event.activate 10] := by
  decide

/-- C8, amended: `setSessionActive(false)` calls `teardownSession` exactly once on every
registered extension and then emits `newModel` once, with the null model; the manager is
unchanged, so the current query stays the one `activateIndex` acts on. -/
theorem setSessionActive_false (m : ExtensionManager) (hd : DistinctAddrs m.extensions_) :
    (setSessionActive m false).2
        = m.extensions_.map (fun e => Event.teardownSession e.addr) ++ [Event.newModel none]
      ∧ (∀ e ∈ m.extensions_,
          (teardownSessionCalls (setSessionActive m false).2).count e.addr = 1)
      ∧ newModels (setSessionActive m false).2 = [none]
      ∧ (setSessionActive m false).1 = m
      ∧ ∀ index, activateIndex (setSessionActive m false).1 index = activateIndex m index := by
  have hcalls : teardownSessionCalls (setSessionActive m false).2
      = m.extensions_.map (fun e => e.addr) := by
    simp only [setSessionActive, Bool.false_eq_true, if_false, teardownSessionCalls,
      List.filterMap_append, List.filterMap_map]
    simp only [List.filterMap_cons_none, List.filterMap_nil, List.append_nil]
    rw [← List.filterMap_eq_map]
    rfl
  refine ⟨by simp [setSessionActive], ?_, ?_, by simp [setSessionActive],
    by simp [setSessionActive]⟩
  · intro e he
    rw [hcalls]
    exact List.count_eq_one_of_mem hd (List.mem_map.2 ⟨e, he, rfl⟩)
  · simp only [setSessionActive, Bool.false_eq_true, if_false, newModels,
      List.filterMap_append, List.filterMap_map]
    simp [List.filterMap_eq_nil_iff]

theorem setSessionActive_false_witness :
    (setSessionActive busyManager false).2
        = busyManager.extensions_.map (fun e => Event.teardownSession e.addr)
            ++ [Event.newModel none]
      ∧ (∀ e ∈ busyManager.extensions_,
          (teardownSessionCalls (setSessionActive busyManager false).2).count e.addr = 1)
      ∧ newModels (setSessionActive busyManager false).2 = [none]
      ∧ (setSessionActive busyManager false).1 = busyManager
      ∧ ∀ index, activateIndex (setSessionActive busyManager false).1 index
          = activateIndex busyManager index :=
  setSessionActive_false busyManager (by decide)

end Albert
